import Mathlib

/-!
# tcp-spacecraft: the key-value server (`src/server/kv_server.cpp`)

A shallow embedding of the server's protocol processor (`process_line`), its
connection handler (`handle_connection`) and its work queue (`enqueue`,
`dequeue`), followed by the properties proved about them.

Conventions of the embedding:

* a `std::string` is a `List Nat`, one element per `char`, each element being the
  unsigned value of the byte (0..255).  Theorems quantify over all lists, which
  includes every real string;
* `std::string::npos` is `none`;
* the global `store` is threaded explicitly: `process_line` takes the store and
  returns the reply together with the store it leaves;
* the operating system is an explicit environment: the results of the successive
  `recv` calls are a list, the result of each `send` call is given by a function
  of the call's index and buffer.
-/

namespace KvServer

/-! ## Strings -/

/-- The bytes of a string literal (all literals used here are ASCII). -/
def bytes (s : String) : List Nat := s.toList.map Char.toNat

/-- The call `s.find(c)`: index of the first occurrence of `c` in `s`, `none` for `npos`. -/
def find : List Nat → Nat → Option Nat
  | [], _ => none
  | x :: xs, c => if x = c then some 0 else (find xs c).map (· + 1)

/-- The call `s.find(c, pos)`: index of the first occurrence of `c` at or after `pos`. -/
def findFrom (s : List Nat) (c : Nat) (pos : Nat) : Option Nat :=
  (find (s.drop pos) c).map (· + pos)

/-- The call `s.substr(pos)`. -/
def substr (s : List Nat) (pos : Nat) : List Nat := s.drop pos

/-- The call `s.substr(pos, n)`. -/
def substrN (s : List Nat) (pos n : Nat) : List Nat := (s.drop pos).take n

/-- The C function `toupper` in the "C" locale (the server never calls `setlocale`):
the letters `a`..`z` go to `A`..`Z`, every other byte is unchanged. -/
def toupper (c : Nat) : Nat := if 97 ≤ c ∧ c ≤ 122 then c - 32 else c

/-! ## Store -/

/-- The global `std::unordered_map<std::string, std::string> store`, as its lookup
function: `none` is `store.find(k) == store.end()`. -/
abbrev Store := List Nat → Option (List Nat)

/-- The store at start-up: no entry. -/
def Store.empty : Store := fun _ => none

/-- The assignment `store[k] = v`. -/
def Store.set (s : Store) (k v : List Nat) : Store :=
  fun k' => if k' = k then some v else s k'

/-! ## Protocol processor -/

/-- The first two statements of `process_line`: one trailing `'\r'` is removed. -/
def stripCR (line : List Nat) : List Nat :=
  if line.getLast? = some 13 then line.dropLast else line

/-- The function `process_line`, on the store it reads and writes: the reply and the
store left behind. -/
def process_line (store : Store) (line0 : List Nat) : List Nat × Store :=
  let line := stripCR line0
  if line = [] then (bytes "ERR empty", store)
  else
    let first_space := find line 32
    let cmd := (match first_space with
      | none => line
      | some p => substrN line 0 p).map toupper
    if cmd = bytes "PING" then (bytes "PONG", store)
    else if cmd = bytes "ECHO" then
      match first_space with
      | none => (bytes "ERR usage", store)
      | some p => (substr line (p + 1), store)
    else if cmd = bytes "SET" then
      match first_space with
      | none => (bytes "ERR usage", store)
      | some p =>
        match findFrom line 32 (p + 1) with
        | none => (bytes "ERR usage", store)
        | some q =>
          let k := substrN line (p + 1) (q - p - 1)
          let v := substr line (q + 1)
          (bytes "OK", store.set k v)
    else if cmd = bytes "GET" then
      match first_space with
      | none => (bytes "ERR usage", store)
      | some p =>
        let k := substr line (p + 1)
        match store k with
        | none => (bytes "NULL", store)
        | some v => (v, store)
    else (bytes "ERR unknown", store)

/-- The replies to a sequence of lines processed one after the other, and the store
left by the last one. -/
def process_lines (store : Store) : List (List Nat) → List (List Nat) × Store
  | [] => ([], store)
  | l :: ls =>
    let r := process_line store l
    let rs := process_lines r.2 ls
    (r.1 :: rs.1, rs.2)

/-! ## Connection handler -/

/-- Outcome of one call `recv(fd, buf, sizeof(buf), 0)`. -/
inductive RecvResult
  /-- The call returned `n = bs.length ≥ 0` and put `bs` in `buf`; `n = 0` is the
  end of the stream (the peer closed).  A real call returns at most `BUFSZ = 4096`
  bytes; nothing below depends on that bound. -/
  | data (bs : List Nat)
  /-- The call returned `n < 0` with `errno == EINTR`. -/
  | eintr
  /-- The call returned `n < 0` with another `errno`. -/
  | error
  deriving DecidableEq

/-- Outcome of one call `send(fd, out.data(), out.size(), 0)`. -/
inductive SendResult
  /-- The call returned `n ≥ 0`: the socket took the first `n` bytes of the buffer. -/
  | sent (n : Nat)
  /-- The call returned a negative value with `errno == EINTR`. -/
  | eintr
  /-- The call returned a negative value with another `errno`. -/
  | error
  deriving DecidableEq

/-- The environment of the `send` calls: the outcome of the call number `i` (from 0)
on the buffer `out`. -/
abbrev SendEnv := Nat → List Nat → SendResult

/-- Every `send` takes its whole buffer. -/
def sendAll : SendEnv := fun _ out => SendResult.sent out.length

/-- The successive `recv` outcomes when the peer's bytes arrive in the given chunks and
no call fails: a blocking `recv` returns once at least one byte is there, so an empty
chunk is not seen by the handler. -/
def deliveries (chunks : List (List Nat)) : List RecvResult :=
  (chunks.filter (fun bs => bs ≠ [])).map RecvResult.data

/-- State of one run of `handle_connection`, with what the run has done so far. -/
structure Conn where
  /-- The global `store`. -/
  store : Store
  /-- The local `acc`. -/
  acc : List Nat
  /-- Bytes the socket has taken from the `send` calls, in order: what the peer receives. -/
  wire : List Nat
  /-- Arguments of the `process_line` calls made, in order. -/
  lines : List (List Nat)
  /-- Number of `send` calls made. -/
  sends : Nat
  /-- Whether `::close(fd)` has been reached. -/
  closed : Bool

/-- The inner loop `for (;;)` of `handle_connection`.  The first argument bounds the
number of iterations; `handle_connection` passes `acc.size()`, which is never reached
short (`parse_loop_fuel`), every iteration removing at least the newline from `acc`. -/
def parse_loop (send : SendEnv) : Nat → Conn → Conn
  | 0, c => c
  | fuel + 1, c =>
    match find c.acc 10 with
    | none => c
    | some pos =>
      let line := substrN c.acc 0 pos
      let r := process_line c.store line
      let out := r.1 ++ [10]
      let c1 : Conn :=
        { c with store := r.2, acc := c.acc.drop (pos + 1),
                 lines := c.lines ++ [line], sends := c.sends + 1 }
      match send c.sends out with
      | SendResult.sent n => parse_loop send fuel { c1 with wire := c.wire ++ out.take n }
      | SendResult.eintr => parse_loop send fuel c1
      | SendResult.error => c1

/-- The outer loop `while (true)` of `handle_connection` followed by `::close(fd)`, on
the outcomes of the successive `recv` calls.  When these are used up the handler is
blocked in `recv` and the state reached so far is returned (`closed = false`). -/
def recv_loop (send : SendEnv) : List RecvResult → Conn → Conn
  | [], c => c
  | RecvResult.data bs :: rs, c =>
    if bs.length = 0 then { c with closed := true }
    else
      let c1 : Conn := { c with acc := c.acc ++ bs }
      recv_loop send rs (parse_loop send c1.acc.length c1)
  | RecvResult.eintr :: rs, c => recv_loop send rs c
  | RecvResult.error :: _, c => { c with closed := true }

/-- The function `handle_connection`, started on the given store. -/
def handle_connection (store : Store) (recv : List RecvResult) (send : SendEnv) : Conn :=
  recv_loop send recv
    { store := store, acc := [], wire := [], lines := [], sends := 0, closed := false }

/-! ## Work queue -/

/-- The globals `q` and `shutting_down`, both guarded by `q_m`. -/
structure WorkQueue where
  /-- The queue `q`, front first. -/
  q : List Int
  /-- The flag `shutting_down`. -/
  shutting_down : Bool
  deriving DecidableEq

/-- The queue at start-up. -/
def WorkQueue.init : WorkQueue := { q := [], shutting_down := false }

/-- The function `enqueue`. -/
def enqueue (s : WorkQueue) (fd : Int) : WorkQueue := { s with q := s.q ++ [fd] }

/-- The shutdown request of `sigint_handler` and of the end of `main`. -/
def request_shutdown (s : WorkQueue) : WorkQueue := { s with shutting_down := true }

/-- What a call of `dequeue` does in a given state. -/
inductive Dequeued
  /-- The predicate of `q_cv.wait` is false: the caller stays blocked. -/
  | blocked
  /-- The call returns `std::nullopt`. -/
  | end_of_work
  /-- The call returns `fd`. -/
  | task (fd : Int)
  deriving DecidableEq

/-- The function `dequeue`, run in the given state. -/
def dequeue (s : WorkQueue) : Dequeued × WorkQueue :=
  if ¬ (s.shutting_down = true ∨ s.q ≠ []) then (Dequeued.blocked, s)
  else if s.shutting_down = true ∧ s.q = [] then (Dequeued.end_of_work, s)
  else
    match s.q with
    | fd :: rest => (Dequeued.task fd, { s with q := rest })
    | [] => (Dequeued.blocked, s)

/-- One operation on the work queue. -/
inductive QueueOp
  | enq (fd : Int)
  | shutdown
  | deq
  deriving DecidableEq

/-- Runs the operations in order: the state reached and the tasks the non-blocked
`dequeue` calls returned, in order. -/
def run_ops : WorkQueue → List QueueOp → WorkQueue × List Int
  | s, [] => (s, [])
  | s, QueueOp.enq fd :: ops => run_ops (enqueue s fd) ops
  | s, QueueOp.shutdown :: ops => run_ops (request_shutdown s) ops
  | s, QueueOp.deq :: ops =>
    match dequeue s with
    | (Dequeued.task fd, s1) => let r := run_ops s1 ops; (r.1, fd :: r.2)
    | (_, s1) => run_ops s1 ops

/-- The tasks enqueued by a sequence of operations, in order. -/
def enqueued : List QueueOp → List Int
  | [] => []
  | QueueOp.enq fd :: ops => fd :: enqueued ops
  | _ :: ops => enqueued ops

/-! ## Notions used to state the properties -/

/-- The lines, each followed by a newline, one after the other: the byte stream of a
sequence of request lines, or of a sequence of reply lines. -/
def wire_lines : List (List Nat) → List Nat
  | [] => []
  | l :: ls => l ++ 10 :: wire_lines ls

/-- The byte stream made of the given chunks. -/
def stream : List (List Nat) → List Nat
  | [] => []
  | b :: bs => b ++ stream bs

/-- The newline-terminated lines of a byte stream, in order and without their newline,
and the bytes after the last newline. -/
def split_lines : List Nat → List (List Nat) × List Nat
  | [] => ([], [])
  | c :: cs =>
    if c = 10 then ([] :: (split_lines cs).1, (split_lines cs).2)
    else
      match (split_lines cs).1 with
      | [] => ([], c :: (split_lines cs).2)
      | l :: ls => ((c :: l) :: ls, (split_lines cs).2)

/-- Stores reachable from the empty store through the protocol: by `process_line` calls
on lines without a newline, the only lines `handle_connection` passes on. -/
inductive Reachable : Store → Prop
  | empty : Reachable Store.empty
  | step (st : Store) (line : List Nat) :
      Reachable st → 10 ∉ line → Reachable (process_line st line).2

/-- The key and the value a line stores when it takes the `SET` branch of `process_line`
down to `store[k] = v`; `none` for every other line. -/
def set_target (line0 : List Nat) : Option (List Nat × List Nat) :=
  let line := stripCR line0
  match find line 32 with
  | none => none
  | some p =>
    if (substrN line 0 p).map toupper = bytes "SET" then
      match findFrom line 32 (p + 1) with
      | none => none
      | some q => some (substrN line (p + 1) (q - p - 1), substr line (q + 1))
    else none

/-- The key a line stores under, if it is a `SET` that stores. -/
def set_key (line : List Nat) : Option (List Nat) := (set_target line).map Prod.fst

/-- Whether `tok` is `word` up to letter case, `word` being made of upper-case ASCII
letters: same length, and each byte of `tok` is the letter of `word` at its place or
the lower-case form of it. -/
def case_variant : List Nat → List Nat → Bool
  | [], [] => true
  | w :: ws, t :: ts => (t == w || t == w + 32) && case_variant ws ts
  | _, _ => false

/-- The bytes of a line before its first space, after the trailing `'\r'` is removed. -/
def first_token (line : List Nat) : List Nat :=
  (stripCR line).takeWhile (fun b => b ≠ 32)

/-- What follows the first space of a line, after the trailing `'\r'` is removed. -/
def after_token (line : List Nat) : List Nat :=
  (stripCR line).drop ((first_token line).length + 1)

/-- The C function `isspace` in the "C" locale: space, `\t`, `\n`, `\v`, `\f`, `\r`. -/
def isspace (c : Nat) : Bool := c == 32 || (9 ≤ c && c ≤ 13)

/-- The first whitespace-delimited token of a line: leading whitespace is skipped and
the token ends at the next whitespace byte. -/
def first_ws_token (line : List Nat) : List Nat :=
  (line.dropWhile isspace).takeWhile (fun b => !isspace b)

/-- The protocol-level errors. -/
inductive ProtoError
  | empty
  | unknown
  | usage
  deriving DecidableEq

/-- The reply line of a protocol-level error. -/
def ProtoError.reply : ProtoError → List Nat
  | ProtoError.empty => bytes "ERR empty"
  | ProtoError.unknown => bytes "ERR unknown"
  | ProtoError.usage => bytes "ERR usage"

/-- Whether the verb of a line (its first token) is one of the four commands. -/
def known_verb (tok : List Nat) : Bool :=
  case_variant (bytes "PING") tok || case_variant (bytes "ECHO") tok
    || case_variant (bytes "SET") tok || case_variant (bytes "GET") tok

/-- The protocol-level error of a line, if it has one: the line is empty; or its verb is
not a command; or it is an `ECHO` or a `GET` with no space after the verb, or a `SET`
with fewer than two spaces, so that the argument is missing. -/
def protocol_error (line : List Nat) : Option ProtoError :=
  if stripCR line = [] then some ProtoError.empty
  else if !known_verb (first_token line) then some ProtoError.unknown
  else if case_variant (bytes "PING") (first_token line) then none
  else if case_variant (bytes "SET") (first_token line) then
    if (stripCR line).count 32 < 2 then some ProtoError.usage else none
  else if 32 ∈ stripCR line then none else some ProtoError.usage

/-- The byte stream `s` cut into newline-terminated lines and a rest without newline. -/
def Decomp (s : List Nat) (ls : List (List Nat)) (rest : List Nat) : Prop :=
  s = wire_lines ls ++ rest ∧ (∀ l ∈ ls, 10 ∉ l) ∧ 10 ∉ rest

/-- No stored value has a newline. -/
def NewlineFree (st : Store) : Prop := ∀ k v, st k = some v → 10 ∉ v

/-- The first `send` call is interrupted (`EINTR`), every later one takes its whole buffer. -/
def sendEintrFirst : SendEnv :=
  fun i out => if i = 0 then SendResult.eintr else SendResult.sent out.length

/-- The first `send` call takes two bytes only, every later one takes its whole buffer. -/
def sendShortFirst : SendEnv :=
  fun i out => if i = 0 then SendResult.sent 2 else SendResult.sent out.length

/-- The first `send` call fails with an error that is not `EINTR`, every later one takes
its whole buffer. -/
def sendErrorFirst : SendEnv :=
  fun i out => if i = 0 then SendResult.error else SendResult.sent out.length

/-! ## Facts on strings -/

theorem find_eq_none_iff (s : List Nat) (c : Nat) : find s c = none ↔ c ∉ s := by
  induction s with
  | nil => simp [find]
  | cons x xs ih =>
    by_cases h : x = c
    · simp [find, h]
    · have h' : ¬ c = x := fun e => h e.symm
      simp [find, h, h', ih]

theorem find_append_cons (a b : List Nat) (c : Nat) (h : c ∉ a) :
    find (a ++ c :: b) c = some a.length := by
  induction a with
  | nil => simp [find]
  | cons x xs ih =>
    have hx : ¬ x = c := fun e => h (by simp [e])
    have hxs : c ∉ xs := fun e => h (by simp [e])
    simp [find, hx, ih hxs]

theorem find_eq_some (s : List Nat) (c p : Nat) (h : find s c = some p) :
    s = s.take p ++ c :: s.drop (p + 1) ∧ c ∉ s.take p ∧ p < s.length := by
  induction s generalizing p with
  | nil => simp [find] at h
  | cons x xs ih =>
    by_cases hx : x = c
    · simp [find, hx] at h
      subst h
      simp [hx]
    · simp only [find, hx, if_false] at h
      cases hf : find xs c with
      | none => simp [hf] at h
      | some p' =>
        simp [hf] at h
        subst h
        obtain ⟨h1, h2, h3⟩ := ih p' hf
        refine ⟨?_, ?_, ?_⟩
        · simp only [List.take_succ_cons, List.drop_succ_cons, List.cons_append]
          rw [← h1]
        · simp only [List.take_succ_cons, List.mem_cons, not_or]
          exact ⟨fun e => hx e.symm, h2⟩
        · simp; omega

theorem stripCR_of_getLast (line : List Nat) (h : line.getLast? ≠ some 13) :
    stripCR line = line := by
  simp [stripCR, h]

theorem getLast_append_cons (a b : List Nat) (x : Nat) :
    (a ++ x :: b).getLast? = (x :: b).getLast? := by
  rw [List.getLast?_append, List.getLast?_eq_getLast (x :: b) (by simp)]
  rfl

/-- The token that `process_line` upper-cases: everything before the first space. -/
theorem cmd_eq_takeWhile (l : List Nat) :
    (match find l 32 with
      | none => l
      | some p => substrN l 0 p) = l.takeWhile (fun b => b ≠ 32) := by
  induction l with
  | nil => simp [find]
  | cons x xs ih =>
    by_cases hx : x = 32
    · simp [find, hx, substrN]
    · cases hf : find xs 32 with
      | none =>
        rw [hf] at ih
        simp only [find, hx, hf, if_false, Option.map_none', List.takeWhile_cons]
        simpa [hx] using ih
      | some p =>
        rw [hf] at ih
        simp only [substrN, List.drop_zero] at ih
        simp only [find, hx, hf, if_false, Option.map_some', List.takeWhile_cons, substrN,
          List.drop_zero, List.take_succ_cons]
        simpa [hx] using ih

/-- The reply to a line without a space. -/
theorem process_line_no_space (st : Store) (line l : List Nat)
    (hl : stripCR line = l) (hne : l ≠ []) (hsp : 32 ∉ l) :
    process_line st line =
      if l.map toupper = bytes "PING" then (bytes "PONG", st)
      else if l.map toupper = bytes "ECHO" ∨ l.map toupper = bytes "SET"
          ∨ l.map toupper = bytes "GET" then (bytes "ERR usage", st)
      else (bytes "ERR unknown", st) := by
  have hf : find l 32 = none := (find_eq_none_iff l 32).2 hsp
  unfold process_line
  simp only [hl, hne, if_false, hf]
  by_cases h1 : l.map toupper = bytes "PING"
  · simp only [if_pos h1]
  by_cases h2 : l.map toupper = bytes "ECHO"
  · simp only [if_neg h1, if_pos h2, if_pos (Or.inl h2 : _ ∨ _ ∨ _)]
  by_cases h3 : l.map toupper = bytes "SET"
  · simp only [if_neg h1, if_neg h2, if_pos h3, if_pos (Or.inr (Or.inl h3) : _ ∨ _ ∨ _)]
  by_cases h4 : l.map toupper = bytes "GET"
  · simp only [if_neg h1, if_neg h2, if_neg h3, if_pos h4, if_pos (Or.inr (Or.inr h4) : _ ∨ _ ∨ _)]
  have hor : ¬ (l.map toupper = bytes "ECHO" ∨ l.map toupper = bytes "SET"
      ∨ l.map toupper = bytes "GET") := by tauto
  simp only [if_neg h1, if_neg h2, if_neg h3, if_neg h4, if_neg hor]

/-- The reply to a line with a space: `tok` is what precedes the first one. -/
theorem process_line_space (st : Store) (line tok rest : List Nat)
    (hl : stripCR line = tok ++ 32 :: rest) (hsp : 32 ∉ tok) :
    process_line st line =
      if tok.map toupper = bytes "PING" then (bytes "PONG", st)
      else if tok.map toupper = bytes "ECHO" then (rest, st)
      else if tok.map toupper = bytes "SET" then
        match find rest 32 with
        | none => (bytes "ERR usage", st)
        | some q => (bytes "OK", st.set (rest.take q) (rest.drop (q + 1)))
      else if tok.map toupper = bytes "GET" then
        match st rest with
        | none => (bytes "NULL", st)
        | some v => (v, st)
      else (bytes "ERR unknown", st) := by
  have hf : find (tok ++ 32 :: rest) 32 = some tok.length := find_append_cons tok rest 32 hsp
  have hd : (tok ++ 32 :: rest).drop (tok.length + 1) = rest := by
    rw [show tok ++ 32 :: rest = (tok ++ [32]) ++ rest by simp]
    rw [List.drop_left' (by simp)]
  unfold process_line
  simp only [hl, hf, substrN, substr, findFrom, List.drop_zero, hd]
  have ht : (tok ++ 32 :: rest).take tok.length = tok := by simp
  rw [ht]
  have hne : tok ++ 32 :: rest ≠ [] := by simp
  simp only [hne, if_false]
  by_cases h1 : tok.map toupper = bytes "PING"
  · simp only [if_pos h1]
  by_cases h2 : tok.map toupper = bytes "ECHO"
  · simp only [if_neg h1, if_pos h2]
  by_cases h3 : tok.map toupper = bytes "SET"
  · simp only [if_neg h1, if_neg h2, if_pos h3]
    cases hq : find rest 32 with
    | none => simp
    | some q =>
      simp only [Option.map_some']
      have : q + (tok.length + 1) - tok.length - 1 = q := by omega
      rw [this]
      have : (tok ++ 32 :: rest).drop (q + (tok.length + 1) + 1) = rest.drop (q + 1) := by
        rw [show q + (tok.length + 1) + 1 = (tok.length + 1) + (q + 1) by omega, ← List.drop_drop, hd]
      rw [this]
  by_cases h4 : tok.map toupper = bytes "GET"
  · simp only [if_neg h1, if_neg h2, if_neg h3, if_pos h4]
  simp only [if_neg h1, if_neg h2, if_neg h3, if_neg h4]

theorem toupper_eq_upper (w t : Nat) (hw : 65 ≤ w ∧ w ≤ 90) :
    toupper t = w ↔ (t = w ∨ t = w + 32) := by
  unfold toupper
  split <;> omega

/-- Comparing the upper-cased token with a command word is comparing up to letter case. -/
theorem case_variant_iff (word tok : List Nat) (hw : ∀ w ∈ word, 65 ≤ w ∧ w ≤ 90) :
    case_variant word tok = true ↔ tok.map toupper = word := by
  induction word generalizing tok with
  | nil => cases tok <;> simp [case_variant]
  | cons w ws ih =>
    cases tok with
    | nil => simp [case_variant]
    | cons t ts =>
      have h1 := toupper_eq_upper w t (hw w (by simp))
      have h2 := ih ts (fun x hx => hw x (by simp [hx]))
      simp only [case_variant, Bool.and_eq_true, Bool.or_eq_true, beq_iff_eq, List.map_cons,
        List.cons.injEq, h1, h2]

theorem upper_PING : ∀ w ∈ bytes "PING", 65 ≤ w ∧ w ≤ 90 := by decide
theorem upper_ECHO : ∀ w ∈ bytes "ECHO", 65 ≤ w ∧ w ≤ 90 := by decide
theorem upper_SET : ∀ w ∈ bytes "SET", 65 ≤ w ∧ w ≤ 90 := by decide
theorem upper_GET : ∀ w ∈ bytes "GET", 65 ≤ w ∧ w ≤ 90 := by decide

/-- A line, once its trailing `'\r'` is removed, is empty, or has no space, or splits at
its first space. -/
theorem line_cases (l : List Nat) :
    l = [] ∨ (l ≠ [] ∧ 32 ∉ l) ∨ ∃ tok rest, l = tok ++ 32 :: rest ∧ 32 ∉ tok := by
  by_cases h : l = []
  · exact Or.inl h
  · cases hf : find l 32 with
    | none => exact Or.inr (Or.inl ⟨h, (find_eq_none_iff l 32).1 hf⟩)
    | some p =>
      obtain ⟨h1, h2, _⟩ := find_eq_some l 32 p hf
      exact Or.inr (Or.inr ⟨_, _, h1, h2⟩)

theorem takeWhile_no_space (l : List Nat) (h : 32 ∉ l) :
    l.takeWhile (fun b => b ≠ 32) = l := by
  rw [List.takeWhile_eq_self_iff]
  intro x hx
  have : x ≠ 32 := fun e => h (e ▸ hx)
  simpa using this

theorem takeWhile_space (tok rest : List Nat) (h : 32 ∉ tok) :
    (tok ++ 32 :: rest).takeWhile (fun b => b ≠ 32) = tok := by
  induction tok with
  | nil => simp
  | cons x xs ih =>
    have hx : x ≠ 32 := fun e => h (by simp [e])
    have hxs : 32 ∉ xs := fun e => h (by simp [e])
    have := ih hxs
    simp only [List.cons_append, List.takeWhile_cons, hx, ne_eq, not_false_eq_true,
      decide_True, if_true, this]

/-- The store after `process_line` is the store before, but for the assignment of a
`SET` line. -/
theorem process_line_store (st : Store) (line : List Nat) :
    (process_line st line).2 =
      match set_target line with
      | none => st
      | some (k, v) => st.set k v := by
  rcases line_cases (stripCR line) with h | ⟨hne, hsp⟩ | ⟨tok, rest, hl, hsp⟩
  · simp [process_line, set_target, h, find]
  · have hf : find (stripCR line) 32 = none := (find_eq_none_iff _ 32).2 hsp
    rw [process_line_no_space st line _ rfl hne hsp]
    simp only [set_target, hf]
    split
    · rfl
    · split <;> rfl
  · have hf : find (tok ++ 32 :: rest) 32 = some tok.length := find_append_cons tok rest 32 hsp
    have hd : (tok ++ 32 :: rest).drop (tok.length + 1) = rest := by
      rw [show tok ++ 32 :: rest = (tok ++ [32]) ++ rest by simp]
      rw [List.drop_left' (by simp)]
    rw [process_line_space st line tok rest hl hsp]
    simp only [set_target, hl, hf, substrN, substr, findFrom, List.drop_zero, hd, List.take_left']
    by_cases h3 : tok.map toupper = bytes "SET"
    · have h1 : ¬ tok.map toupper = bytes "PING" := by rw [h3]; decide
      have h2 : ¬ tok.map toupper = bytes "ECHO" := by rw [h3]; decide
      simp only [if_neg h1, if_neg h2, if_pos h3]
      cases hq : find rest 32 with
      | none => simp
      | some q =>
        simp only [Option.map_some']
        have e1 : q + (tok.length + 1) - tok.length - 1 = q := by omega
        have e2 : (tok ++ 32 :: rest).drop (q + (tok.length + 1) + 1) = rest.drop (q + 1) := by
          rw [show q + (tok.length + 1) + 1 = (tok.length + 1) + (q + 1) by omega,
            ← List.drop_drop, hd]
        rw [e1, e2]
    · simp only [if_neg h3]
      split
      · rfl
      · split
        · rfl
        · split
          · cases st rest <;> rfl
          · rfl

theorem stripCR_append_cons (a v : List Nat) (x : Nat) (hx : x ≠ 13) :
    stripCR (a ++ x :: v) = a ++ x :: stripCR v := by
  cases v with
  | nil =>
    have h1 : stripCR ([] : List Nat) = [] := by simp [stripCR]
    rw [h1]
    apply stripCR_of_getLast
    rw [getLast_append_cons]
    simpa using hx
  | cons y ys =>
    have hl : (a ++ x :: y :: ys).getLast? = (y :: ys).getLast? := by
      rw [show a ++ x :: y :: ys = (a ++ [x]) ++ y :: ys by simp, getLast_append_cons]
    have hd : (a ++ x :: y :: ys).dropLast = a ++ x :: (y :: ys).dropLast := by
      rw [List.dropLast_append_of_ne_nil _ (by simp)]
      rfl
    unfold stripCR
    rw [hl]
    split
    · rw [hd]
    · rfl

/-- Lines that do not store under `k` leave the entry of `k` as it is. -/
theorem process_lines_other_keys (st : Store) (ls : List (List Nat)) (k : List Nat)
    (h : ∀ l ∈ ls, set_key l ≠ some k) : (process_lines st ls).2 k = st k := by
  induction ls generalizing st with
  | nil => rfl
  | cons l ls ih =>
    have hl : set_key l ≠ some k := h l (by simp)
    have hs : (process_line st l).2 k = st k := by
      rw [process_line_store]
      cases ht : set_target l with
      | none => rfl
      | some kv =>
        obtain ⟨k', v'⟩ := kv
        have : k' ≠ k := by
          intro e
          apply hl
          simp [set_key, ht, e]
        have hne : ¬ k = k' := fun e => this e.symm
        simp [Store.set, hne]
    simp only [process_lines]
    rw [ih (process_line st l).2 (fun x hx => h x (by simp [hx])), hs]

/-- The reply to `GET <arg>`: the entry of the key `<arg>` less one trailing `'\r'`. -/
theorem process_line_GET (st : Store) (arg : List Nat) :
    process_line st (bytes "GET " ++ arg) =
      (match st (stripCR arg) with
        | none => bytes "NULL"
        | some v => v, st) := by
  have hl : stripCR (bytes "GET " ++ arg) = bytes "GET" ++ 32 :: stripCR arg := by
    rw [show bytes "GET " ++ arg = bytes "GET" ++ 32 :: arg by rfl]
    exact stripCR_append_cons _ _ 32 (by decide)
  rw [process_line_space st _ _ _ hl (by decide)]
  rw [if_neg (by decide), if_neg (by decide), if_neg (by decide), if_pos (by decide)]
  cases st (stripCR arg) <;> rfl

/-- The effect of `SET <k> <v>` for a key without a space. -/
theorem process_line_SET (st : Store) (k v : List Nat) (hk : 32 ∉ k) :
    process_line st (bytes "SET " ++ k ++ 32 :: v) = (bytes "OK", st.set k (stripCR v)) := by
  have hl : stripCR (bytes "SET " ++ k ++ 32 :: v) = bytes "SET" ++ 32 :: (k ++ 32 :: stripCR v) := by
    rw [stripCR_append_cons _ _ 32 (by decide)]
    rfl
  rw [process_line_space st _ _ _ hl (by decide)]
  rw [if_neg (by decide), if_neg (by decide), if_pos (by decide)]
  rw [find_append_cons k _ 32 hk]
  simp only [List.take_left']
  rw [show k ++ 32 :: stripCR v = (k ++ [32]) ++ stripCR v by simp, List.drop_left' (by simp)]

/-! ## Facts on the connection handler -/

theorem parse_loop_no_newline (send : SendEnv) (fuel : Nat) (c : Conn) (h : 10 ∉ c.acc) :
    parse_loop send fuel c = c := by
  cases fuel with
  | zero => rfl
  | succ n => simp [parse_loop, (find_eq_none_iff c.acc 10).2 h]

/-- The bound that `handle_connection` gives the inner loop is never reached short: with
`acc.size()` iterations allowed or with more, the loop ends the same way. -/
theorem parse_loop_fuel (send : SendEnv) (fuel extra : Nat) (c : Conn)
    (h : c.acc.length ≤ fuel) :
    parse_loop send (fuel + extra) c = parse_loop send fuel c := by
  induction fuel generalizing c with
  | zero =>
    have hacc : c.acc = [] := List.length_eq_zero.1 (Nat.le_zero.1 h)
    rw [parse_loop_no_newline send _ c (by simp [hacc]),
      parse_loop_no_newline send _ c (by simp [hacc])]
  | succ n ih =>
    rw [show n + 1 + extra = (n + extra) + 1 by omega]
    cases hf : find c.acc 10 with
    | none => simp [parse_loop, hf]
    | some pos =>
      obtain ⟨_, _, hlt⟩ := find_eq_some c.acc 10 pos hf
      have hlen : (c.acc.drop (pos + 1)).length ≤ n := by
        rw [List.length_drop]; omega
      simp only [parse_loop, hf]
      cases send c.sends ((process_line c.store (substrN c.acc 0 pos)).1 ++ [10]) with
      | sent m => exact ih _ hlen
      | eintr => exact ih _ hlen
      | error => rfl

theorem wire_lines_append (a b : List (List Nat)) :
    wire_lines (a ++ b) = wire_lines a ++ wire_lines b := by
  induction a with
  | nil => rfl
  | cons l ls ih => simp [wire_lines, ih]

theorem wire_lines_length (ls : List (List Nat)) : ls.length ≤ (wire_lines ls).length := by
  induction ls with
  | nil => simp
  | cons l ls ih => simp [wire_lines]; omega

theorem process_lines_append (st : Store) (a b : List (List Nat)) :
    process_lines st (a ++ b) =
      ((process_lines st a).1 ++ (process_lines (process_lines st a).2 b).1,
        (process_lines (process_lines st a).2 b).2) := by
  induction a generalizing st with
  | nil => rfl
  | cons l ls ih => simp [process_lines, ih]

theorem process_lines_length (st : Store) (ls : List (List Nat)) :
    (process_lines st ls).1.length = ls.length := by
  induction ls generalizing st with
  | nil => rfl
  | cons l ls ih => simp [process_lines, ih]

theorem split_lines_spec (s : List Nat) : Decomp s (split_lines s).1 (split_lines s).2 := by
  induction s with
  | nil => exact ⟨rfl, by simp [split_lines], by simp [split_lines]⟩
  | cons c cs ih =>
    obtain ⟨h1, h2, h3⟩ := ih
    by_cases hc : c = 10
    · subst hc
      simp only [split_lines, if_true]
      refine ⟨?_, ?_, h3⟩
      · simp only [wire_lines, List.nil_append, List.cons_append]
        rw [← h1]
      · intro l hl
        rcases List.mem_cons.1 hl with e | e
        · simp [e]
        · exact h2 l e
    · simp only [split_lines, if_neg hc]
      cases hs : (split_lines cs).1 with
      | nil =>
        rw [hs] at h1
        simp only [wire_lines, List.nil_append] at h1
        refine ⟨?_, by simp, ?_⟩
        · simp only [wire_lines, List.nil_append]
          rw [← h1]
        · simp only [List.mem_cons, not_or]
          exact ⟨fun e => hc e.symm, h3⟩
      | cons l ls =>
        rw [hs] at h1 h2
        refine ⟨?_, ?_, h3⟩
        · simp only [wire_lines, List.cons_append]
          simp only [wire_lines] at h1
          rw [← h1]
        · intro x hx
          rcases List.mem_cons.1 hx with e | e
          · subst e
            simp only [List.mem_cons, not_or]
            exact ⟨fun e => hc e.symm, h2 l (by simp)⟩
          · exact h2 x (by simp [e])

theorem decomp_unique (s : List Nat) (ls : List (List Nat)) (rest : List Nat)
    (h : Decomp s ls rest) : split_lines s = (ls, rest) := by
  induction s generalizing ls rest with
  | nil =>
    obtain ⟨h1, _, _⟩ := h
    cases ls with
    | nil =>
      simp only [wire_lines, List.nil_append] at h1
      simp [split_lines, ← h1]
    | cons l ls => simp [wire_lines] at h1
  | cons c cs ih =>
    obtain ⟨h1, h2, h3⟩ := h
    cases ls with
    | nil =>
      simp only [wire_lines, List.nil_append] at h1
      subst h1
      have hc : c ≠ 10 := fun e => h3 (by simp [e])
      have hcs : 10 ∉ cs := fun e => h3 (by simp [e])
      have := ih [] cs ⟨rfl, by simp, hcs⟩
      simp [split_lines, hc, this]
    | cons l ls =>
      have hl : 10 ∉ l := h2 l (by simp)
      have hls : ∀ x ∈ ls, 10 ∉ x := fun x hx => h2 x (by simp [hx])
      cases l with
      | nil =>
        simp only [wire_lines, List.nil_append, List.cons_append, List.cons.injEq] at h1
        obtain ⟨hc, hcs⟩ := h1
        have := ih ls rest ⟨hcs, hls, h3⟩
        simp [split_lines, hc, this]
      | cons x xs =>
        simp only [wire_lines, List.cons_append, List.cons.injEq] at h1
        obtain ⟨hc, hcs⟩ := h1
        subst hc
        have hc : c ≠ 10 := fun e => hl (by simp [e])
        have hxs : 10 ∉ xs := fun e => hl (by simp [e])
        have := ih (xs :: ls) rest ⟨by simpa [wire_lines] using hcs, by
          intro y hy
          rcases List.mem_cons.1 hy with e | e
          · rw [e]; exact hxs
          · exact hls y e, h3⟩
        simp [split_lines, hc, this]

theorem decomp_append (s t : List Nat) (ls1 ls2 : List (List Nat)) (rest1 rest2 : List Nat)
    (h1 : Decomp s ls1 rest1) (h2 : Decomp (rest1 ++ t) ls2 rest2) :
    Decomp (s ++ t) (ls1 ++ ls2) rest2 := by
  obtain ⟨a1, a2, _⟩ := h1
  obtain ⟨b1, b2, b3⟩ := h2
  refine ⟨?_, ?_, b3⟩
  · rw [a1, wire_lines_append, List.append_assoc, List.append_assoc, ← b1]
  · intro l hl
    rcases List.mem_append.1 hl with e | e
    · exact a2 l e
    · exact b2 l e

/-- The inner loop when every `send` takes its whole buffer: the buffered lines are
processed in order, their replies go out in order, the rest stays in `acc`. -/
theorem parse_loop_sendAll (ls : List (List Nat)) (rest : List Nat) (fuel : Nat) (c : Conn)
    (h : Decomp c.acc ls rest) (hfuel : ls.length ≤ fuel) :
    parse_loop sendAll fuel c =
      { store := (process_lines c.store ls).2, acc := rest,
        wire := c.wire ++ wire_lines (process_lines c.store ls).1,
        lines := c.lines ++ ls, sends := c.sends + ls.length, closed := c.closed } := by
  induction ls generalizing c fuel with
  | nil =>
    obtain ⟨h1, _, h3⟩ := h
    simp only [wire_lines, List.nil_append] at h1
    rw [parse_loop_no_newline sendAll fuel c (by rw [h1]; exact h3)]
    cases c
    simp only [process_lines, wire_lines, List.append_nil, List.length_nil, Nat.add_zero]
    simp only at h1
    rw [h1]
  | cons l ls ih =>
    obtain ⟨h1, h2, h3⟩ := h
    have hl : 10 ∉ l := h2 l (by simp)
    simp only [wire_lines, List.cons_append, List.append_assoc] at h1
    cases fuel with
    | zero => simp at hfuel
    | succ n =>
      have hf : find c.acc 10 = some l.length := by
        rw [h1]; exact find_append_cons l _ 10 hl
      have hd : c.acc.drop (l.length + 1) = wire_lines ls ++ rest := by
        rw [h1, show l ++ 10 :: (wire_lines ls ++ rest) = (l ++ [10]) ++ (wire_lines ls ++ rest)
          by simp, List.drop_left' (by simp)]
      have ht : substrN c.acc 0 l.length = l := by
        rw [h1]; simp [substrN]
      simp only [parse_loop, hf, ht, hd, sendAll, List.take_length]
      rw [ih n _ ⟨rfl, fun x hx => h2 x (by simp [hx]), h3⟩ (by simpa using hfuel)]
      simp only [process_lines, wire_lines, List.length_cons, List.append_assoc,
        List.cons_append, List.singleton_append, List.nil_append]
      congr 1
      omega

theorem deliveries_cons_nil (chunks : List (List Nat)) :
    deliveries ([] :: chunks) = deliveries chunks := by
  simp [deliveries]

theorem deliveries_cons (b : List Nat) (chunks : List (List Nat)) (hb : b ≠ []) :
    deliveries (b :: chunks) = RecvResult.data b :: deliveries chunks := by
  simp [deliveries, hb]

/-- The handler's loops when no call fails: what matters is the byte stream, not the
chunks it comes in. -/
theorem recv_loop_sendAll (chunks : List (List Nat)) (c : Conn) (hacc : 10 ∉ c.acc) :
    recv_loop sendAll (deliveries chunks) c =
      { store := (process_lines c.store (split_lines (c.acc ++ stream chunks)).1).2,
        acc := (split_lines (c.acc ++ stream chunks)).2,
        wire := c.wire ++
          wire_lines (process_lines c.store (split_lines (c.acc ++ stream chunks)).1).1,
        lines := c.lines ++ (split_lines (c.acc ++ stream chunks)).1,
        sends := c.sends + (split_lines (c.acc ++ stream chunks)).1.length,
        closed := c.closed } := by
  induction chunks generalizing c with
  | nil =>
    have : split_lines (c.acc ++ stream []) = ([], c.acc) :=
      decomp_unique _ _ _ ⟨by simp [stream, wire_lines], by simp, hacc⟩
    rw [this]
    cases c
    simp [deliveries, recv_loop, process_lines, wire_lines]
  | cons b chunks ih =>
    by_cases hb : b = []
    · subst hb
      rw [deliveries_cons_nil, ih c hacc]
      simp [stream]
    · rw [deliveries_cons b chunks hb]
      have hlen : ¬ b.length = 0 := fun e => hb (List.length_eq_zero.1 e)
      simp only [recv_loop, hlen, if_false]
      have hd := split_lines_spec (c.acc ++ b)
      have hfuel : (split_lines (c.acc ++ b)).1.length ≤ (c.acc ++ b).length := by
        have := wire_lines_length (split_lines (c.acc ++ b)).1
        have h1 := congrArg List.length hd.1
        simp only [List.length_append] at h1 ⊢
        omega
      rw [parse_loop_sendAll (split_lines (c.acc ++ b)).1 (split_lines (c.acc ++ b)).2 _
        { c with acc := c.acc ++ b } hd hfuel]
      rw [ih _ hd.2.2]
      have hd2 := split_lines_spec ((split_lines (c.acc ++ b)).2 ++ stream chunks)
      have hu := decomp_unique _ _ _ (decomp_append _ _ _ _ _ _ hd hd2)
      have hs : c.acc ++ stream (b :: chunks) = c.acc ++ b ++ stream chunks := by
        simp [stream]
      rw [hs, hu]
      simp only [process_lines_append, List.append_assoc, wire_lines_append, List.length_append,
        Nat.add_assoc]

/-- The handler on a byte stream delivered in chunks, every call succeeding. -/
theorem handle_connection_sendAll (st : Store) (chunks : List (List Nat)) :
    handle_connection st (deliveries chunks) sendAll =
      { store := (process_lines st (split_lines (stream chunks)).1).2,
        acc := (split_lines (stream chunks)).2,
        wire := wire_lines (process_lines st (split_lines (stream chunks)).1).1,
        lines := (split_lines (stream chunks)).1,
        sends := (split_lines (stream chunks)).1.length,
        closed := false } := by
  unfold handle_connection
  rw [recv_loop_sendAll chunks _ (by simp)]
  simp

theorem find_takeWhile (l : List Nat) (q : Nat) (h : find l 32 = some q) :
    l.take q = l.takeWhile (fun b => b ≠ 32) ∧ (l.takeWhile (fun b => b ≠ 32)).length = q := by
  have := cmd_eq_takeWhile l
  rw [h] at this
  simp only [substrN, List.drop_zero] at this
  obtain ⟨_, _, hlt⟩ := find_eq_some l 32 q h
  refine ⟨this, ?_⟩
  rw [← this, List.length_take]
  omega

theorem first_token_no_space (line : List Nat) (h : 32 ∉ stripCR line) :
    first_token line = stripCR line := takeWhile_no_space _ h

theorem first_token_space (line tok rest : List Nat) (hl : stripCR line = tok ++ 32 :: rest)
    (hsp : 32 ∉ tok) : first_token line = tok ∧ after_token line = rest := by
  have h1 : first_token line = tok := by
    unfold first_token
    rw [hl]
    exact takeWhile_space tok rest hsp
  refine ⟨h1, ?_⟩
  unfold after_token
  rw [h1, hl, show tok ++ 32 :: rest = (tok ++ [32]) ++ rest by simp, List.drop_left' (by simp)]

theorem case_variant_nil (word : List Nat) (h : word ≠ []) : case_variant word [] = false := by
  cases word with
  | nil => exact absurd rfl h
  | cons w ws => rfl

theorem stripCR_subset (line : List Nat) (x : Nat) (h : x ∈ stripCR line) : x ∈ line := by
  unfold stripCR at h
  split at h
  · exact List.mem_of_mem_dropLast h
  · exact h

theorem not_mem_of_drop (l : List Nat) (n x : Nat) (h : x ∉ l) : x ∉ l.drop n :=
  fun e => h (List.mem_of_mem_drop e)

/-- A line without newline, on a store without newline in its values, gets a reply
without newline and leaves such a store. -/
theorem process_line_newline_free (st : Store) (line : List Nat) (hst : NewlineFree st)
    (hl : 10 ∉ line) :
    10 ∉ (process_line st line).1 ∧ NewlineFree (process_line st line).2 := by
  have hs : 10 ∉ stripCR line := fun e => hl (stripCR_subset line 10 e)
  rcases line_cases (stripCR line) with h | ⟨hne, hsp⟩ | ⟨tok, rest, hl', hsp⟩
  · simp only [process_line, h, if_true]
    exact ⟨(by decide : 10 ∉ bytes "ERR empty"), hst⟩
  · rw [process_line_no_space st line _ rfl hne hsp]
    split
    · exact ⟨(by decide : 10 ∉ bytes "PONG"), hst⟩
    · split
      · exact ⟨(by decide : 10 ∉ bytes "ERR usage"), hst⟩
      · exact ⟨(by decide : 10 ∉ bytes "ERR unknown"), hst⟩
  · have hrest : 10 ∉ rest := by
      intro e
      apply hs
      rw [hl']
      simp [e]
    rw [process_line_space st line tok rest hl' hsp]
    split
    · exact ⟨(by decide : 10 ∉ bytes "PONG"), hst⟩
    · split
      · exact ⟨hrest, hst⟩
      · split
        · cases find rest 32 with
          | none => exact ⟨(by decide : 10 ∉ bytes "ERR usage"), hst⟩
          | some q =>
            refine ⟨(by decide : 10 ∉ bytes "OK"), ?_⟩
            intro k v hkv
            simp only [Store.set] at hkv
            split at hkv
            · cases hkv
              exact not_mem_of_drop rest _ 10 hrest
            · exact hst k v hkv
        · split
          · cases hg : st rest with
            | none => exact ⟨(by decide : 10 ∉ bytes "NULL"), hst⟩
            | some v => exact ⟨hst rest v hg, hst⟩
          · exact ⟨(by decide : 10 ∉ bytes "ERR unknown"), hst⟩

theorem reachable_newline_free (st : Store) (h : Reachable st) : NewlineFree st := by
  induction h with
  | empty => intro k v hkv; simp [Store.empty] at hkv
  | step st line _ hl ih => exact (process_line_newline_free st line ih hl).2

theorem process_lines_newline_free (st : Store) (ls : List (List Nat)) (hst : NewlineFree st)
    (hls : ∀ l ∈ ls, 10 ∉ l) :
    (∀ r ∈ (process_lines st ls).1, 10 ∉ r) ∧ NewlineFree (process_lines st ls).2 := by
  induction ls generalizing st with
  | nil => exact ⟨by simp [process_lines], hst⟩
  | cons l ls ih =>
    obtain ⟨h1, h2⟩ := process_line_newline_free st l hst (hls l (by simp))
    obtain ⟨h3, h4⟩ := ih _ h2 (fun x hx => hls x (by simp [hx]))
    refine ⟨?_, h4⟩
    intro r hr
    simp only [process_lines, List.mem_cons] at hr
    rcases hr with e | e
    · rw [e]; exact h1
    · exact h3 r e

/-- Lines without newline leave a reachable store reachable. -/
theorem process_lines_reachable (st : Store) (ls : List (List Nat)) (hst : Reachable st)
    (hls : ∀ l ∈ ls, 10 ∉ l) : Reachable (process_lines st ls).2 := by
  induction ls generalizing st with
  | nil => exact hst
  | cons l ls ih =>
    exact ih _ (Reachable.step st l hst (hls l (by simp))) (fun x hx => hls x (by simp [hx]))

theorem parse_loop_reachable (send : SendEnv) (fuel : Nat) (c : Conn)
    (h : Reachable c.store) : Reachable (parse_loop send fuel c).store := by
  induction fuel generalizing c with
  | zero => exact h
  | succ n ih =>
    cases hf : find c.acc 10 with
    | none =>
      simp only [parse_loop, hf]
      exact h
    | some pos =>
      obtain ⟨_, hno, _⟩ := find_eq_some c.acc 10 pos hf
      have hline : 10 ∉ substrN c.acc 0 pos := by simpa [substrN] using hno
      have hstep := Reachable.step c.store _ h hline
      simp only [parse_loop, hf]
      cases send c.sends ((process_line c.store (substrN c.acc 0 pos)).1 ++ [10]) with
      | sent m => exact ih _ hstep
      | eintr => exact ih _ hstep
      | error => exact hstep

/-- Whatever the `recv` and `send` calls return, the handler passes only lines without
newline to `process_line`: it leaves a reachable store reachable. -/
theorem handle_connection_reachable (st : Store) (recv : List RecvResult) (send : SendEnv)
    (h : Reachable st) : Reachable (handle_connection st recv send).store := by
  have key : ∀ (rs : List RecvResult) (c : Conn), Reachable c.store →
      Reachable (recv_loop send rs c).store := by
    intro rs
    induction rs with
    | nil => intro c hc; exact hc
    | cons r rs ih =>
      intro c hc
      cases r with
      | data bs =>
        simp only [recv_loop]
        split
        · exact hc
        · exact ih _ (parse_loop_reachable send _ _ hc)
      | eintr => exact ih c hc
      | error => exact hc
  exact key recv _ h

theorem count_wire_lines (ls : List (List Nat)) (h : ∀ l ∈ ls, 10 ∉ l) :
    (wire_lines ls).count 10 = ls.length := by
  induction ls with
  | nil => rfl
  | cons l ls ih =>
    have h1 : l.count 10 = 0 := List.count_eq_zero.2 (h l (by simp))
    have h2 := ih (fun x hx => h x (by simp [hx]))
    simp [wire_lines, List.count_append, h1, h2]

theorem decomp_count (s : List Nat) (ls : List (List Nat)) (rest : List Nat)
    (h : Decomp s ls rest) : s.count 10 = ls.length := by
  obtain ⟨h1, h2, h3⟩ := h
  rw [h1, List.count_append, count_wire_lines ls h2, List.count_eq_zero.2 h3]
  rfl

theorem case_variant_decide (word tok : List Nat) (hw : ∀ w ∈ word, 65 ≤ w ∧ w ≤ 90) :
    case_variant word tok = decide (tok.map toupper = word) := by
  rw [Bool.eq_iff_iff, case_variant_iff word tok hw]
  simp

/-- A line with a protocol-level error gets the reply of its error and leaves the store
as it is. -/
theorem protocol_error_reply (st : Store) (line : List Nat) (e : ProtoError)
    (he : protocol_error line = some e) : process_line st line = (e.reply, st) := by
  have n1 : ¬ bytes "ECHO" = bytes "PING" := by decide
  have n2 : ¬ bytes "SET" = bytes "PING" := by decide
  have n3 : ¬ bytes "SET" = bytes "ECHO" := by decide
  have n4 : ¬ bytes "GET" = bytes "PING" := by decide
  have n5 : ¬ bytes "GET" = bytes "ECHO" := by decide
  have n6 : ¬ bytes "GET" = bytes "SET" := by decide
  unfold protocol_error at he
  by_cases h0 : stripCR line = []
  · rw [if_pos h0] at he
    cases he
    simp [process_line, h0, ProtoError.reply]
  rw [if_neg h0] at he
  simp only [known_verb, case_variant_decide _ _ upper_PING, case_variant_decide _ _ upper_ECHO,
    case_variant_decide _ _ upper_SET, case_variant_decide _ _ upper_GET] at he
  rcases line_cases (stripCR line) with h | ⟨hne, hsp⟩ | ⟨tok, rest, hl, hsp⟩
  · exact absurd h h0
  · rw [first_token_no_space line hsp] at he
    rw [process_line_no_space st line _ rfl hne hsp]
    by_cases h1 : (stripCR line).map toupper = bytes "PING"
    · simp [h1] at he
    by_cases h2 : (stripCR line).map toupper = bytes "ECHO"
    · simp [n1, n2, n3, n4, n5, n6, h1, h2, hsp] at he
      cases he
      rw [if_neg h1, if_pos (Or.inl h2)]
      rfl
    by_cases h3 : (stripCR line).map toupper = bytes "SET"
    · have hc : (stripCR line).count 32 = 0 := List.count_eq_zero.2 hsp
      simp [n1, n2, n3, n4, n5, n6, h1, h2, h3, hc] at he
      cases he
      rw [if_neg h1, if_pos (Or.inr (Or.inl h3))]
      rfl
    by_cases h4 : (stripCR line).map toupper = bytes "GET"
    · simp [n1, n2, n3, n4, n5, n6, h1, h2, h3, h4, hsp] at he
      cases he
      rw [if_neg h1, if_pos (Or.inr (Or.inr h4))]
      rfl
    · simp [n1, n2, n3, n4, n5, n6, h1, h2, h3, h4] at he
      cases he
      rw [if_neg h1, if_neg (by tauto)]
      rfl
  · rw [(first_token_space line tok rest hl hsp).1] at he
    have hmem : 32 ∈ stripCR line := by rw [hl]; simp
    rw [process_line_space st line tok rest hl hsp]
    by_cases h1 : tok.map toupper = bytes "PING"
    · simp [h1] at he
    by_cases h2 : tok.map toupper = bytes "ECHO"
    · have n7 : ¬ bytes "ECHO" = bytes "SET" := by decide
      simp [n1, n2, n3, n4, n5, n6, n7, h1, h2, hmem] at he
    by_cases h3 : tok.map toupper = bytes "SET"
    · have hc : (stripCR line).count 32 = 1 + rest.count 32 := by
        rw [hl, List.count_append, List.count_eq_zero.2 hsp, List.count_cons_self]
        omega
      simp [n1, n2, n3, n4, n5, n6, h1, h2, h3, hc] at he
      obtain ⟨hr, he⟩ := he
      cases he
      have hr' : 32 ∉ rest := by
        apply List.count_eq_zero.1
        omega
      rw [if_neg h1, if_neg h2, if_pos h3, (find_eq_none_iff rest 32).2 hr']
      rfl
    by_cases h4 : tok.map toupper = bytes "GET"
    · simp [n1, n2, n3, n4, n5, n6, h1, h2, h3, h4, hmem] at he
    · simp [n1, n2, n3, n4, n5, n6, h1, h2, h3, h4] at he
      cases he
      rw [if_neg h1, if_neg h2, if_neg h3, if_neg h4]
      rfl

/-! ## Facts on the work queue -/

theorem dequeue_cons (fd : Int) (rest : List Int) (sd : Bool) :
    dequeue { q := fd :: rest, shutting_down := sd }
      = (Dequeued.task fd, { q := rest, shutting_down := sd }) := by
  simp [dequeue]

theorem dequeue_nil (s : WorkQueue) (h : s.q = []) : (dequeue s).2 = s := by
  unfold dequeue
  cases hsd : s.shutting_down <;> simp [h]

theorem dequeue_end_of_work_iff (s : WorkQueue) :
    (dequeue s).1 = Dequeued.end_of_work ↔ (s.shutting_down = true ∧ s.q = []) := by
  obtain ⟨q, sd⟩ := s
  cases q with
  | nil => cases sd <;> simp [dequeue]
  | cons fd rest => simp [dequeue]

theorem dequeue_blocked_iff (s : WorkQueue) :
    (dequeue s).1 = Dequeued.blocked ↔ (s.shutting_down = false ∧ s.q = []) := by
  obtain ⟨q, sd⟩ := s
  cases q with
  | nil => cases sd <;> simp [dequeue]
  | cons fd rest => simp [dequeue]

theorem dequeue_of_nil (sd : Bool) :
    dequeue { q := [], shutting_down := sd }
      = (if sd then Dequeued.end_of_work else Dequeued.blocked,
          { q := [], shutting_down := sd }) := by
  cases sd <;> simp [dequeue]

theorem run_ops_fifo (s : WorkQueue) (ops : List QueueOp) :
    (run_ops s ops).2 ++ (run_ops s ops).1.q = s.q ++ enqueued ops := by
  induction ops generalizing s with
  | nil => simp [run_ops, enqueued]
  | cons op ops ih =>
    cases op with
    | enq fd =>
      simp only [run_ops, enqueued]
      rw [ih]
      simp [enqueue]
    | shutdown =>
      simp only [run_ops, enqueued]
      rw [ih]
      simp [request_shutdown]
    | deq =>
      obtain ⟨q, sd⟩ := s
      cases q with
      | nil =>
        simp only [run_ops, enqueued, dequeue_of_nil]
        cases sd
        · simpa using ih { q := [], shutting_down := false }
        · simpa using ih { q := [], shutting_down := true }
      | cons fd rest =>
        simp only [run_ops, enqueued, dequeue_cons]
        have := ih { q := rest, shutting_down := sd }
        simp only [List.cons_append]
        rw [this]

theorem run_ops_shutting_down (s : WorkQueue) (ops : List QueueOp) :
    (run_ops s ops).1.shutting_down = true
      ↔ (s.shutting_down = true ∨ QueueOp.shutdown ∈ ops) := by
  induction ops generalizing s with
  | nil => simp [run_ops]
  | cons op ops ih =>
    cases op with
    | enq fd =>
      simp only [run_ops]
      rw [ih]
      simp [enqueue]
    | shutdown =>
      simp only [run_ops]
      rw [ih]
      simp [request_shutdown]
    | deq =>
      obtain ⟨q, sd⟩ := s
      cases q with
      | nil =>
        simp only [run_ops, dequeue_of_nil]
        cases sd
        · simpa using ih { q := [], shutting_down := false }
        · simpa using ih { q := [], shutting_down := true }
      | cons fd rest =>
        simp only [run_ops, dequeue_cons]
        rw [ih]
        simp

theorem run_ops_drain (s : WorkQueue) :
    run_ops s (List.replicate s.q.length QueueOp.deq)
      = ({ q := [], shutting_down := s.shutting_down }, s.q) := by
  obtain ⟨q, sd⟩ := s
  induction q with
  | nil => simp [run_ops]
  | cons fd rest ih =>
    simp only [List.length_cons, List.replicate_succ, run_ops, dequeue_cons]
    simp only at ih
    rw [ih]

/-! ## Facts on the end of a connection -/

/-- A `recv` that fails with an error other than `EINTR` ends the handler: nothing later
is received, processed or sent. -/
theorem recv_error_closes (send : SendEnv) (rs : List RecvResult) (c : Conn) :
    recv_loop send (RecvResult.error :: rs) c = { c with closed := true } := rfl

/-- A `recv` that returns 0 ends the handler. -/
theorem recv_zero_closes (send : SendEnv) (rs : List RecvResult) (c : Conn) :
    recv_loop send (RecvResult.data [] :: rs) c = { c with closed := true } := rfl

/-- An interrupted `recv` is called again. -/
theorem recv_eintr_retried (send : SendEnv) (rs : List RecvResult) (c : Conn) :
    recv_loop send (RecvResult.eintr :: rs) c = recv_loop send rs c := rfl

/-! ## The properties -/

/-- C1 (amended): for every store, every key `k` that has no space and does not end in a
carriage return, and every value `v` (spaces allowed): the line `SET k v` replies `OK`, and
after any lines that do not store under `k`, the line `GET k` replies `v` less one trailing
carriage return, which is `v` itself when `v` does not end in one. -/
theorem set_then_get (st : Store) (k v : List Nat) (mid : List (List Nat))
    (hk : 32 ∉ k) (hkr : k.getLast? ≠ some 13)
    (hmid : ∀ l ∈ mid, set_key l ≠ some k) :
    (process_line st (bytes "SET " ++ k ++ 32 :: v)).1 = bytes "OK" ∧
    (process_line (process_lines (process_line st (bytes "SET " ++ k ++ 32 :: v)).2 mid).2
        (bytes "GET " ++ k)).1 = stripCR v := by
  rw [process_line_SET st k v hk]
  refine ⟨rfl, ?_⟩
  rw [process_line_GET, stripCR_of_getLast k hkr]
  simp only [process_lines_other_keys _ mid k hmid]
  simp [Store.set]

/-- C1, an instance: on a store where `a` holds `old`, `SET a b c d`, then `PING`,
`SET z 1` and `GET a`, then `GET a`. -/
theorem set_then_get_witness :
    (process_line (Store.empty.set (bytes "a") (bytes "old"))
        (bytes "SET " ++ bytes "a" ++ 32 :: bytes "b c d")).1 = bytes "OK" ∧
    (process_line (process_lines (process_line (Store.empty.set (bytes "a") (bytes "old"))
        (bytes "SET " ++ bytes "a" ++ 32 :: bytes "b c d")).2
          [bytes "PING", bytes "SET z 1", bytes "GET a"]).2
        (bytes "GET " ++ bytes "a")).1 = stripCR (bytes "b c d") :=
  set_then_get (Store.empty.set (bytes "a") (bytes "old")) (bytes "a") (bytes "b c d")
    [bytes "PING", bytes "SET z 1", bytes "GET a"] (by decide) (by decide) (by decide)

/-- C1 as stated fails: with the key `a b` the line `SET a b c` stores `b c` under `a` and
`GET a b` replies `NULL`; with the value `x\r` the line `SET k x\r` stores `x`; with the
key `k\r` the line `GET k\r` looks `k` up. -/
theorem set_then_get_counterexample :
    (process_line (process_line Store.empty (bytes "SET " ++ bytes "a b" ++ 32 :: bytes "c")).2
        (bytes "GET " ++ bytes "a b")).1 = bytes "NULL" ∧
    bytes "NULL" ≠ bytes "c" ∧
    (process_line (process_line Store.empty (bytes "SET " ++ bytes "k" ++ 32 :: bytes "x\r")).2
        (bytes "GET " ++ bytes "k")).1 ≠ bytes "x\r" ∧
    (process_line (process_line Store.empty (bytes "SET " ++ bytes "k\r" ++ 32 :: bytes "x")).2
        (bytes "GET " ++ bytes "k\r")).1 ≠ bytes "x" := by
  decide

/-- C5 (amended): starting from the empty store, for every sequence of lines and every `k`
such that no line of the sequence stores under `k` less one trailing carriage return (the
key that `GET k` looks up; it is `k` when `k` does not end in one), a following `GET k`
replies `NULL`. -/
theorem get_unwritten (lines : List (List Nat)) (k : List Nat)
    (h : ∀ l ∈ lines, set_key l ≠ some (stripCR k)) :
    (process_line (process_lines Store.empty lines).2 (bytes "GET " ++ k)).1 = bytes "NULL" := by
  rw [process_line_GET, process_lines_other_keys _ lines _ h]
  rfl

/-- C5, an instance: after `SET a 1`, `ECHO SET b 2`, `GET b` and `PING`, the line `GET b`. -/
theorem get_unwritten_witness :
    (process_line (process_lines Store.empty
        [bytes "SET a 1", bytes "ECHO SET b 2", bytes "GET b", bytes "PING"]).2
      (bytes "GET " ++ bytes "b")).1 = bytes "NULL" :=
  get_unwritten [bytes "SET a 1", bytes "ECHO SET b 2", bytes "GET b", bytes "PING"]
    (bytes "b") (by decide)

/-- C5 as stated fails at the key `a\r`: the only line, `SET a x`, stores under `a`, not
under `a\r`, and `GET a\r` replies `x`. -/
theorem get_unwritten_counterexample :
    (∀ l ∈ [bytes "SET a x"], set_key l ≠ some (bytes "a\r")) ∧
    (process_line (process_lines Store.empty [bytes "SET a x"]).2
      (bytes "GET " ++ bytes "a\r")).1 = bytes "x" ∧
    bytes "x" ≠ bytes "NULL" := by
  decide

/-- C7 (amended): the verb is what precedes the first space character of the line (the
whole line if it has none), after one trailing carriage return is removed, compared up to
letter case; no other whitespace delimits it and leading spaces are not skipped.  For
every line whose such token is a letter-case variant of `PING`, `ECHO`, `SET` or `GET`,
`process_line` takes the branch of that command. -/
theorem verb_dispatch (st : Store) (line : List Nat) :
    (case_variant (bytes "PING") (first_token line) = true →
      process_line st line = (bytes "PONG", st)) ∧
    (case_variant (bytes "ECHO") (first_token line) = true →
      process_line st line =
        if 32 ∈ stripCR line then (after_token line, st) else (bytes "ERR usage", st)) ∧
    (case_variant (bytes "SET") (first_token line) = true →
      process_line st line =
        if 32 ∈ after_token line then
          (bytes "OK", st.set ((after_token line).takeWhile (fun b => b ≠ 32))
            ((after_token line).drop (((after_token line).takeWhile (fun b => b ≠ 32)).length + 1)))
        else (bytes "ERR usage", st)) ∧
    (case_variant (bytes "GET") (first_token line) = true →
      process_line st line =
        if 32 ∈ stripCR line then
          (match st (after_token line) with
            | none => bytes "NULL"
            | some v => v, st)
        else (bytes "ERR usage", st)) := by
  rcases line_cases (stripCR line) with h | ⟨hne, hsp⟩ | ⟨tok, rest, hl, hsp⟩
  · have ht : first_token line = [] := by simp [first_token, h]
    rw [ht]
    refine ⟨?_, ?_, ?_, ?_⟩ <;> intro hc <;> exact absurd hc (by decide)
  · have ht := first_token_no_space line hsp
    have ha : after_token line = [] := by
      unfold after_token
      rw [ht]
      simp
    rw [ht, ha, process_line_no_space st line _ rfl hne hsp]
    simp only [case_variant_iff _ _ upper_PING, case_variant_iff _ _ upper_ECHO,
      case_variant_iff _ _ upper_SET, case_variant_iff _ _ upper_GET]
    refine ⟨?_, ?_, ?_, ?_⟩ <;> intro hc <;> rw [hc]
    · rfl
    · rw [if_neg (by decide), if_pos (by decide), if_neg hsp]
    · rw [if_neg (by decide), if_pos (by decide), if_neg (by simp)]
    · rw [if_neg (by decide), if_pos (by decide), if_neg hsp]
  · obtain ⟨ht, ha⟩ := first_token_space line tok rest hl hsp
    have hmem : 32 ∈ stripCR line := by rw [hl]; simp
    rw [ht, ha, process_line_space st line tok rest hl hsp]
    simp only [case_variant_iff _ _ upper_PING, case_variant_iff _ _ upper_ECHO,
      case_variant_iff _ _ upper_SET, case_variant_iff _ _ upper_GET]
    refine ⟨?_, ?_, ?_, ?_⟩ <;> intro hc <;> rw [hc]
    · rfl
    · rw [if_neg (by decide), if_pos (by decide), if_pos hmem]
    · rw [if_neg (by decide), if_neg (by decide), if_pos (by decide)]
      cases hq : find rest 32 with
      | none =>
        have := (find_eq_none_iff rest 32).1 hq
        rw [if_neg this]
      | some q =>
        obtain ⟨h1, h2, _⟩ := find_eq_some rest 32 q hq
        have hin : 32 ∈ rest := by rw [h1]; simp
        obtain ⟨e1, e2⟩ := find_takeWhile rest q hq
        rw [if_pos hin, ← e1]
        rw [e1, e2, ← e1]
    · rw [if_neg (by decide), if_neg (by decide), if_neg (by decide), if_pos (by decide),
        if_pos hmem]
      cases st rest <;> rfl

/-- C7, instances: `ping` and `PiNg x` reply `PONG`, `echo a b  c` replies `a b  c`,
`Set k v w` stores `v w` under `k`, `get k` on the empty store replies `NULL`. -/
theorem verb_dispatch_witness :
    process_line Store.empty (bytes "ping") = (bytes "PONG", Store.empty) ∧
    process_line Store.empty (bytes "PiNg x") = (bytes "PONG", Store.empty) ∧
    (process_line Store.empty (bytes "echo a b  c")).1 = bytes "a b  c" ∧
    (process_line Store.empty (bytes "Set k v w")).2 (bytes "k") = some (bytes "v w") ∧
    (process_line Store.empty (bytes "get k")).1 = bytes "NULL" :=
  ⟨(verb_dispatch Store.empty (bytes "ping")).1 (by decide),
   (verb_dispatch Store.empty (bytes "PiNg x")).1 (by decide),
   by rw [(verb_dispatch Store.empty (bytes "echo a b  c")).2.1 (by decide)]; decide,
   by rw [(verb_dispatch Store.empty (bytes "Set k v w")).2.2.1 (by decide)]; decide,
   by rw [(verb_dispatch Store.empty (bytes "get k")).2.2.2 (by decide)]; decide⟩

/-- C7 as stated fails: the first whitespace-delimited token of ` PING` and of `PING\tx` is
`PING`, and both lines reply `ERR unknown`. -/
theorem verb_dispatch_counterexample :
    case_variant (bytes "PING") (first_ws_token (bytes " PING")) = true ∧
    (process_line Store.empty (bytes " PING")).1 = bytes "ERR unknown" ∧
    case_variant (bytes "PING") (first_ws_token (bytes "PING\tx")) = true ∧
    (process_line Store.empty (bytes "PING\tx")).1 = bytes "ERR unknown" ∧
    bytes "ERR unknown" ≠ bytes "PONG" := by
  decide

/-- C2: reassembly does not depend on how the bytes are split across deliveries.  For
every store and every split of a byte string into `a` then `b`, the handler fed `a` and
then `b`, every `send` taking its whole buffer, ends in the same state (same bytes sent,
same store, same `acc`, same lines processed) as when fed `a ++ b` in one delivery; the
same on the bare `recv` outcomes when `a` and `b` are not empty; and the deliveries
`SET a` then ` b\n` are processed as the one line `SET a b`. -/
theorem reassembly (st : Store) (a b : List Nat) :
    handle_connection st (deliveries [a, b]) sendAll
      = handle_connection st (deliveries [a ++ b]) sendAll ∧
    (a ≠ [] → b ≠ [] →
      handle_connection st [RecvResult.data a, RecvResult.data b] sendAll
        = handle_connection st [RecvResult.data (a ++ b)] sendAll) ∧
    handle_connection st [RecvResult.data (bytes "SET a"), RecvResult.data (bytes " b\n")] sendAll
      = { store := (process_line st (bytes "SET a b")).2, acc := [],
          wire := (process_line st (bytes "SET a b")).1 ++ [10],
          lines := [bytes "SET a b"], sends := 1, closed := false } := by
  have key : handle_connection st (deliveries [a, b]) sendAll
      = handle_connection st (deliveries [a ++ b]) sendAll := by
    rw [handle_connection_sendAll, handle_connection_sendAll]
    simp [stream]
  refine ⟨key, ?_, ?_⟩
  · intro ha hb
    have h1 : deliveries [a, b] = [RecvResult.data a, RecvResult.data b] := by
      simp [deliveries, ha, hb]
    have h2 : deliveries [a ++ b] = [RecvResult.data (a ++ b)] := by
      simp [deliveries, ha]
    rw [← h1, ← h2]
    exact key
  · have h1 : deliveries [bytes "SET a", bytes " b\n"]
        = [RecvResult.data (bytes "SET a"), RecvResult.data (bytes " b\n")] := by decide
    rw [← h1, handle_connection_sendAll]
    have h2 : split_lines (stream [bytes "SET a", bytes " b\n"]) = ([bytes "SET a b"], []) := by
      decide
    rw [h2]
    simp [process_lines, wire_lines]

/-- C2, an instance: `GET k\nSET k v` then `1\nGET k\nPI` against `GET k\nSET k v1\nGET k\nPI`
in one delivery, on the bare `recv` outcomes. -/
theorem reassembly_witness :
    handle_connection Store.empty
        [RecvResult.data (bytes "GET k\nSET k v"), RecvResult.data (bytes "1\nGET k\nPI")] sendAll
      = handle_connection Store.empty
        [RecvResult.data (bytes "GET k\nSET k v" ++ bytes "1\nGET k\nPI")] sendAll :=
  (reassembly Store.empty (bytes "GET k\nSET k v") (bytes "1\nGET k\nPI")).2.1
    (by decide) (by decide)

/-- C3: one reply line per request line, in request order.  For every reachable store and
every sequence of deliveries, every `send` taking its whole buffer: the stream is, in
exactly one way, `n` lines without newline each followed by a newline and then a rest
without newline, `n` being the number of newlines of the stream; the handler calls
`process_line` on these lines in order; the bytes sent are the replies, each followed by a
newline, `reply_i` being that of line `i` on the store left by the lines before it; there
are `n` replies and none has a newline; the rest stays in `acc` and gets no reply. -/
theorem one_reply_per_line (st : Store) (chunks : List (List Nat)) (hst : Reachable st) :
    Decomp (stream chunks) (split_lines (stream chunks)).1 (split_lines (stream chunks)).2 ∧
    (∀ ls rest, Decomp (stream chunks) ls rest → split_lines (stream chunks) = (ls, rest)) ∧
    (split_lines (stream chunks)).1.length = (stream chunks).count 10 ∧
    (handle_connection st (deliveries chunks) sendAll).lines = (split_lines (stream chunks)).1 ∧
    (handle_connection st (deliveries chunks) sendAll).wire
      = wire_lines (process_lines st (split_lines (stream chunks)).1).1 ∧
    (process_lines st (split_lines (stream chunks)).1).1.length = (stream chunks).count 10 ∧
    (∀ r ∈ (process_lines st (split_lines (stream chunks)).1).1, 10 ∉ r) ∧
    (handle_connection st (deliveries chunks) sendAll).store
      = (process_lines st (split_lines (stream chunks)).1).2 ∧
    (handle_connection st (deliveries chunks) sendAll).acc = (split_lines (stream chunks)).2 ∧
    (handle_connection st (deliveries chunks) sendAll).sends = (stream chunks).count 10 := by
  have hd := split_lines_spec (stream chunks)
  have hc := decomp_count _ _ _ hd
  rw [handle_connection_sendAll]
  refine ⟨hd, fun ls rest h => decomp_unique _ ls rest h, hc.symm, rfl, rfl, ?_, ?_, rfl, rfl,
    hc.symm⟩
  · rw [process_lines_length, hc]
  · exact (process_lines_newline_free st _ (reachable_newline_free st hst) hd.2.1).1

/-- C3, an instance: on the store left by `SET k v`, the deliveries `GET k\nFOO`, `\n\nPI`
and `NG\nEC`: four newlines, four replies `v`, `ERR unknown`, `ERR empty`, `PONG`. -/
theorem one_reply_per_line_witness :
    (handle_connection (process_line Store.empty (bytes "SET k v")).2
        (deliveries [bytes "GET k\nFOO", bytes "\n\nPI", bytes "NG\nEC"]) sendAll).wire
      = wire_lines (process_lines (process_line Store.empty (bytes "SET k v")).2
          (split_lines (stream [bytes "GET k\nFOO", bytes "\n\nPI", bytes "NG\nEC"])).1).1 ∧
    wire_lines (process_lines (process_line Store.empty (bytes "SET k v")).2
          (split_lines (stream [bytes "GET k\nFOO", bytes "\n\nPI", bytes "NG\nEC"])).1).1
      = bytes "v\nERR unknown\nERR empty\nPONG\n" ∧
    (handle_connection (process_line Store.empty (bytes "SET k v")).2
        (deliveries [bytes "GET k\nFOO", bytes "\n\nPI", bytes "NG\nEC"]) sendAll).acc
      = bytes "EC" :=
  ⟨(one_reply_per_line (process_line Store.empty (bytes "SET k v")).2
      [bytes "GET k\nFOO", bytes "\n\nPI", bytes "NG\nEC"]
      (Reachable.step Store.empty (bytes "SET k v") Reachable.empty (by decide))).2.2.2.2.1,
    by decide, by decide⟩

/-- C4: `PING` replies `PONG` whatever the store, and on a connection: for every store and
every sequence of complete lines sent before it on the connection, in whatever chunks the
bytes come, the bytes sent are the replies to these lines followed by exactly `PONG\n`. -/
theorem ping_pong (st : Store) (prior : List (List Nat)) (chunks : List (List Nat))
    (hprior : ∀ l ∈ prior, 10 ∉ l)
    (hs : stream chunks = wire_lines prior ++ bytes "PING\n") :
    process_line st (bytes "PING") = (bytes "PONG", st) ∧
    process_line (process_lines st prior).2 (bytes "PING")
      = (bytes "PONG", (process_lines st prior).2) ∧
    (handle_connection st (deliveries chunks) sendAll).wire
      = wire_lines (process_lines st prior).1 ++ bytes "PONG\n" := by
  have hp : ∀ s : Store, process_line s (bytes "PING") = (bytes "PONG", s) := by
    intro s
    rw [process_line_no_space s (bytes "PING") (bytes "PING") (by decide) (by decide)
      (by decide)]
    rw [if_pos (by decide)]
  refine ⟨hp st, hp _, ?_⟩
  have hd : Decomp (stream chunks) (prior ++ [bytes "PING"]) [] := by
    refine ⟨?_, ?_, by simp⟩
    · rw [hs, wire_lines_append]
      simp only [wire_lines, List.append_nil]
      rfl
    · intro l hl
      rcases List.mem_append.1 hl with e | e
      · exact hprior l e
      · rw [List.mem_singleton.1 e]
        decide
  rw [handle_connection_sendAll, decomp_unique _ _ _ hd, process_lines_append,
    wire_lines_append]
  simp only [process_lines, hp, wire_lines]
  rfl

/-- C4, an instance: after `SET a 1` and `FOO`, delivered with the `PING` in two chunks cut
inside the `PING`. -/
theorem ping_pong_witness :
    process_line Store.empty (bytes "PING") = (bytes "PONG", Store.empty) ∧
    process_line (process_lines Store.empty [bytes "SET a 1", bytes "FOO"]).2 (bytes "PING")
      = (bytes "PONG", (process_lines Store.empty [bytes "SET a 1", bytes "FOO"]).2) ∧
    (handle_connection Store.empty (deliveries [bytes "SET a 1\nFOO\nPI", bytes "NG\n"])
        sendAll).wire
      = wire_lines (process_lines Store.empty [bytes "SET a 1", bytes "FOO"]).1
          ++ bytes "PONG\n" :=
  ping_pong Store.empty [bytes "SET a 1", bytes "FOO"]
    [bytes "SET a 1\nFOO\nPI", bytes "NG\n"] (by decide) (by decide)

/-- C6: a protocol-level error gets its `ERR` reply and leaves the connection usable.  For
every line that is empty, has an unknown verb, or is an `ECHO`, `GET` or `SET` whose
argument is missing, `process_line` replies `ERR empty`, `ERR unknown` or `ERR usage` and
leaves the store as it is; and when such a line and then another come on a connection, in
whatever chunks, the bytes sent are the `ERR` reply line and then the reply line that the
second line gets on the same store, and the handler has not closed. -/
theorem protocol_error_recovers (st : Store) (line next : List Nat) (e : ProtoError)
    (chunks : List (List Nat)) (hl : 10 ∉ line) (hn : 10 ∉ next)
    (he : protocol_error line = some e)
    (hs : stream chunks = wire_lines [line, next]) :
    process_line st line = (e.reply, st) ∧
    (handle_connection st (deliveries chunks) sendAll).wire
      = e.reply ++ 10 :: ((process_line st next).1 ++ [10]) ∧
    (handle_connection st (deliveries chunks) sendAll).lines = [line, next] ∧
    (handle_connection st (deliveries chunks) sendAll).store = (process_line st next).2 ∧
    (handle_connection st (deliveries chunks) sendAll).closed = false := by
  have hr := protocol_error_reply st line e he
  have hd : Decomp (stream chunks) [line, next] [] := by
    refine ⟨by rw [hs]; simp, ?_, by simp⟩
    intro l hmem
    simp only [List.mem_cons, List.mem_singleton, List.not_mem_nil, or_false] at hmem
    rcases hmem with e1 | e1
    · rw [e1]; exact hl
    · rw [e1]; exact hn
  rw [handle_connection_sendAll, decomp_unique _ _ _ hd]
  simp only [process_lines, hr, wire_lines]
  exact ⟨trivial, by simp, trivial, trivial, trivial⟩

/-- C6, an instance: `FOO\n` then `PING\n` get `ERR unknown\n` then `PONG\n`. -/
theorem protocol_error_recovers_witness :
    process_line Store.empty (bytes "FOO") = (ProtoError.unknown.reply, Store.empty) ∧
    (handle_connection Store.empty (deliveries [bytes "FOO\n", bytes "PING\n"]) sendAll).wire
      = ProtoError.unknown.reply ++ 10 :: ((process_line Store.empty (bytes "PING")).1 ++ [10]) ∧
    ProtoError.unknown.reply ++ 10 :: ((process_line Store.empty (bytes "PING")).1 ++ [10])
      = bytes "ERR unknown\nPONG\n" :=
  have h := protocol_error_recovers Store.empty (bytes "FOO") (bytes "PING") ProtoError.unknown
    [bytes "FOO\n", bytes "PING\n"] (by decide) (by decide) (by decide) (by decide)
  ⟨h.1, h.2.1, by decide⟩

/-- C8 does not hold of the code.  On the delivery `PING\nECHO x\n` the peer receives
`PONG\nx\n` when no call fails; when the first `send` is interrupted the reply `PONG\n` is
never sent again and the peer receives `x\n`; when the first `send` takes two bytes only
the other three are never sent and the peer receives `POx\n`. -/
theorem send_not_retried :
    (handle_connection Store.empty [RecvResult.data (bytes "PING\nECHO x\n")] sendAll).wire
      = bytes "PONG\nx\n" ∧
    (handle_connection Store.empty [RecvResult.data (bytes "PING\nECHO x\n")]
      sendEintrFirst).wire = bytes "x\n" ∧
    (handle_connection Store.empty [RecvResult.data (bytes "PING\nECHO x\n")]
      sendEintrFirst).sends = 2 ∧
    (handle_connection Store.empty [RecvResult.data (bytes "PING\nECHO x\n")]
      sendShortFirst).wire = bytes "POx\n" ∧
    (handle_connection Store.empty [RecvResult.data (bytes "PING\nECHO x\n")]
      sendShortFirst).sends = 2 := by
  decide

/-- C9 does not hold of the code for a failed `send`.  The first `send` (the reply to
`SET a 1`) fails with an error that is not `EINTR`; the handler does not close: it calls
`recv` again and, on the next delivery, processes the buffered `SET b 2` and the new
`SET c 3`, writes the store and sends both replies. -/
theorem send_error_not_closed :
    (handle_connection Store.empty
      [RecvResult.data (bytes "SET a 1\nSET b 2\n"), RecvResult.data (bytes "SET c 3\n")]
      sendErrorFirst).lines = [bytes "SET a 1", bytes "SET b 2", bytes "SET c 3"] ∧
    (handle_connection Store.empty
      [RecvResult.data (bytes "SET a 1\nSET b 2\n"), RecvResult.data (bytes "SET c 3\n")]
      sendErrorFirst).store (bytes "b") = some (bytes "2") ∧
    (handle_connection Store.empty
      [RecvResult.data (bytes "SET a 1\nSET b 2\n"), RecvResult.data (bytes "SET c 3\n")]
      sendErrorFirst).store (bytes "c") = some (bytes "3") ∧
    (handle_connection Store.empty
      [RecvResult.data (bytes "SET a 1\nSET b 2\n"), RecvResult.data (bytes "SET c 3\n")]
      sendErrorFirst).sends = 3 ∧
    (handle_connection Store.empty
      [RecvResult.data (bytes "SET a 1\nSET b 2\n"), RecvResult.data (bytes "SET c 3\n")]
      sendErrorFirst).wire = bytes "OK\nOK\n" ∧
    (handle_connection Store.empty
      [RecvResult.data (bytes "SET a 1\nSET b 2\n"), RecvResult.data (bytes "SET c 3\n")]
      sendErrorFirst).closed = false ∧
    (handle_connection Store.empty
      [RecvResult.data (bytes "SET a 1\nSET b 2\n")] sendErrorFirst).lines
      = [bytes "SET a 1"] := by
  decide

/-- C10: the work queue is first in, first out, and is drained before the end of work.
`dequeue` returns the end of work exactly when shutdown is requested and the queue is
empty, stays blocked exactly when shutdown is not requested and the queue is empty, and
otherwise returns and removes the front, also after shutdown; `enqueue` adds at the back;
for every sequence of `enqueue`, shutdown and `dequeue` calls from the start, the tasks
returned followed by the tasks still queued are the tasks enqueued, in order; the flag is
set from the first shutdown request on; and from every state, as many `dequeue` calls as
there are queued tasks return them all, in order, and leave the queue empty. -/
theorem work_queue_fifo :
    (∀ s : WorkQueue,
      (dequeue s).1 = Dequeued.end_of_work ↔ (s.shutting_down = true ∧ s.q = [])) ∧
    (∀ s : WorkQueue,
      (dequeue s).1 = Dequeued.blocked ↔ (s.shutting_down = false ∧ s.q = [])) ∧
    (∀ (fd : Int) (rest : List Int) (sd : Bool),
      dequeue { q := fd :: rest, shutting_down := sd }
        = (Dequeued.task fd, { q := rest, shutting_down := sd })) ∧
    (∀ s : WorkQueue, s.q = [] → (dequeue s).2 = s) ∧
    (∀ (s : WorkQueue) (fd : Int),
      enqueue s fd = { q := s.q ++ [fd], shutting_down := s.shutting_down }) ∧
    (∀ ops : List QueueOp,
      (run_ops WorkQueue.init ops).2 ++ (run_ops WorkQueue.init ops).1.q = enqueued ops) ∧
    (∀ (s : WorkQueue) (ops : List QueueOp),
      (run_ops s ops).1.shutting_down = true
        ↔ (s.shutting_down = true ∨ QueueOp.shutdown ∈ ops)) ∧
    (∀ s : WorkQueue,
      run_ops s (List.replicate s.q.length QueueOp.deq)
        = ({ q := [], shutting_down := s.shutting_down }, s.q)) := by
  refine ⟨?_, ?_, ?_, ?_, ?_, ?_, ?_, ?_⟩
  · intro s; exact dequeue_end_of_work_iff s
  · intro s; exact dequeue_blocked_iff s
  · intro fd rest sd; exact dequeue_cons fd rest sd
  · intro s hs; exact dequeue_nil s hs
  · intro s fd; rfl
  · intro ops
    have := run_ops_fifo WorkQueue.init ops
    simpa [WorkQueue.init] using this
  · intro s ops; exact run_ops_shutting_down s ops
  · intro s; exact run_ops_drain s

/-- C10, an instance: the empty queue before and after the shutdown request. -/
theorem work_queue_fifo_witness :
    (dequeue { q := [], shutting_down := true }).2 = { q := [], shutting_down := true } ∧
    (dequeue { q := [], shutting_down := false }).2 = { q := [], shutting_down := false } :=
  ⟨work_queue_fifo.2.2.2.1 { q := [], shutting_down := true } rfl,
   work_queue_fifo.2.2.2.1 { q := [], shutting_down := false } rfl⟩

end KvServer
